import Mathlib

/-!
Verification of the core algorithms of `tt-log.py`: reconstruction of work
intervals from an issue's status-change history (`JiraTaskProcessor`) and
proportional normalization of task durations (`TimeAdjuster`).

Timestamps and Python `timedelta` values are modelled as exact rational
numbers of seconds; Python float arithmetic (`total_seconds`, `%`, `/`,
`timedelta * float`) is modelled by the corresponding exact rational
operations.  Line numbers in doc comments refer to `src/tt-log.py`.
-/

namespace TTLog

/-- `WORK_HOURS = 8` (line 22). -/
def WORK_HOURS : ℚ := 8

/-- `timedelta(hours=WORK_HOURS)` (line 399), in seconds. -/
def workday_seconds : ℚ := WORK_HOURS * 3600

/-- `EventType.OTHER` (line 107). -/
def EventType.OTHER : ℕ := 1

/-- `EventType.TASK` (line 108). -/
def EventType.TASK : ℕ := 2

/-- `EventType.MEETING` (line 109). -/
def EventType.MEETING : ℕ := 3

/-- `Event` (lines 112–128): a frozen attr dataclass, so value equality is
componentwise; `work_time` is a `timedelta`, modelled in seconds. -/
structure Event where
  work_time : ℚ
  key : String
  title : String
  event_type : ℕ
deriving DecidableEq

/-- `TimeInterval` (lines 131–146): `start` and `stop` are timezone-aware
datetimes, modelled as rational seconds since the epoch. -/
structure TimeInterval where
  start : ℚ
  stop : ℚ
  from_status : String
  to_status : String
deriving DecidableEq

/-- `TimeInterval.duration` (lines 144–146). -/
def TimeInterval.duration (i : TimeInterval) : ℚ := i.stop - i.start

/-- `datetime.date()` modelled as the floor day number of a timestamp. -/
def dateOf (t : ℚ) : ℤ := ⌊t / 86400⌋

/-- `TimeInterval.is_between` (lines 138–142): the given date lies between
the start and stop dates, inclusive on both ends. -/
def TimeInterval.is_between (i : TimeInterval) (timestamp : ℤ) : Prop :=
  dateOf i.start ≤ timestamp ∧ timestamp ≤ dateOf i.stop

instance (i : TimeInterval) (d : ℤ) : Decidable (i.is_between d) := by
  unfold TimeInterval.is_between
  exact instDecidableAnd

/-- `StatusChange` (lines 149–152). -/
structure StatusChange where
  created : ℚ
  to_status : String
deriving DecidableEq

/-- `JiraConfig` (lines 94–103). -/
structure JiraConfig where
  username : String
  password : String
  assignee_name : String
  project_abbr : String
  status_field : String
  start_work_status : String
  stop_work_status_primary : String
  stop_work_status_secondary : String
deriving DecidableEq

/-- One change item of a history record: its `field` name and `toString`
value (JSON keys of lines 30 and 33). -/
structure ChangeItem where
  field : String
  to_string : String
deriving DecidableEq

/-- One record of `changelog.histories`: the `created` timestamp (already
parsed to rational seconds) and the change items. -/
structure History where
  created : ℚ
  items : List ChangeItem
deriving DecidableEq

/-- `JiraTaskProcessor._is_status_history` (lines 384–388): the record has a
first change item and its `field` equals the configured status field. -/
def is_status_history (status_field : String) (obj : History) : Bool :=
  match obj.items with
  | [] => false
  | item :: _ => item.field == status_field

/-- `JiraTaskProcessor._status_changes_list` (lines 390–393): a list
comprehension over `reversed(histories)` keeping status histories and
reading `items[0].toString`. -/
def status_changes_list (status_field : String) (histories : List History) :
    List StatusChange :=
  ((histories.reverse).filter (is_status_history status_field)).map
    (fun obj => ⟨obj.created, (obj.items.headD ⟨"", ""⟩).to_string⟩)

/-- `JiraTaskProcessor._not_finished` (line 283). -/
def not_finished : String := "NOT FINISHED YET"

/-- The pair-scanning loop of `JiraTaskProcessor._work_intervals`
(lines 366–372): `for start, stop in zip(changes, changes[1:])` emitting an
interval when `start.to_status == start_status` and `stop.to_status` is one
of the two stop statuses. -/
def pairIntervals (config : JiraConfig) (changes : List StatusChange) :
    List TimeInterval :=
  (changes.zip changes.tail).filterMap (fun p =>
    if p.1.to_status = config.start_work_status ∧
        p.2.to_status ∈ [config.stop_work_status_primary,
          config.stop_work_status_secondary] then
      some ⟨p.1.created, p.2.created, p.1.to_status, p.2.to_status⟩
    else none)

/-- `JiraTaskProcessor._work_intervals` (lines 355–382): the pair scan plus
the unfinished-work synthesis on the last status change. -/
def work_intervals (config : JiraConfig) (stop_work_timestamp : ℚ)
    (changes : List StatusChange) (current_status : String) :
    List TimeInterval :=
  if h : changes = [] then []
  else
    let result := pairIntervals config changes
    let last := changes.getLast h
    if current_status = config.start_work_status ∧
        last.to_status = config.start_work_status then
      let stop_timestamp := if stop_work_timestamp > last.created then
          stop_work_timestamp
        else last.created + 600
      result ++ [⟨last.created, stop_timestamp, last.to_status, not_finished⟩]
    else result

/-- The per-interval clipping step of `JiraTaskProcessor._process_task`
(lines 329–337): raise `start` to the workday start when earlier, lower
`stop` to the workday end unless `stop` is already earlier or the workday
end precedes the interval's start. -/
def limit_by_work_hours (start_work_timestamp stop_work_timestamp : ℚ)
    (obj : TimeInterval) : TimeInterval :=
  { start := if obj.start > start_work_timestamp then obj.start
      else start_work_timestamp
    stop := if obj.stop < stop_work_timestamp ∨
          stop_work_timestamp < obj.start then obj.stop
      else stop_work_timestamp
    from_status := obj.from_status
    to_status := obj.to_status }

/-- `JiraTaskProcessor._remove_duplicates_and_errors` (lines 304–309):
`list(set([event for event in events if event.work_time]))`.  A zero
`timedelta` is falsy, so zero-duration events are dropped; the set is
modelled as deduplication by value equality (Python set iteration order is
not specified and no claim depends on it). -/
def remove_duplicates_and_errors (events : List Event) : List Event :=
  (events.filter (fun event => decide (event.work_time ≠ 0))).dedup

/-- Python `min` over a list (line 428); total with junk value 0 on `[]`,
where Python raises. -/
def pyMin : List ℚ → ℚ
  | [] => 0
  | x :: xs => xs.foldl min x

/-- Python `max` over a list (line 430); total with junk value 0 on `[]`. -/
def pyMax : List ℚ → ℚ
  | [] => 0
  | x :: xs => xs.foldl max x

/-- Python `list.index` (lines 428, 430): index of the first element equal
to the value; total with junk result `length` when absent, where Python
raises. -/
def pyIndex : List ℚ → ℚ → ℕ
  | [], _ => 0
  | a :: rest, x => if a = x then 0 else pyIndex rest x + 1

/-- `TimeAdjuster._proportions` (lines 468–478). -/
def proportions (items : List ℚ) : List ℚ :=
  let sum_of_items := items.sum
  if sum_of_items = 0 then items.map (fun _ => 0)
  else items.map (fun i => i / sum_of_items)

/-- `TimeAdjuster._round_timedelta` (lines 446–466) with the default period
`timedelta(minutes=5)`; Python float `%` is `x - p * ⌊x / p⌋` for the
positive period `p`. -/
def round_timedelta (td : ℚ) : ℚ :=
  let period_seconds : ℚ := 300
  let half_period_seconds := period_seconds / 2
  let remainder := td - period_seconds * (⌊td / period_seconds⌋ : ℚ)
  if remainder ≥ half_period_seconds then td + (period_seconds - remainder)
  else td - remainder

/-- Lines 425–432 of `TimeAdjuster._calculate_tasks_times`: compute
`diff_after_rounding` and add it in place at the index of the first minimal
(when the residual is positive) or first maximal (otherwise) entry. -/
def residual_fix (tasks_must_be_time : ℚ) (tasks_times : List ℚ) : List ℚ :=
  let calculated_tasks_time := tasks_times.sum
  let diff_after_rounding := tasks_must_be_time - calculated_tasks_time
  let time_idx := if diff_after_rounding > 0 then
      pyIndex tasks_times (pyMin tasks_times)
    else pyIndex tasks_times (pyMax tasks_times)
  tasks_times.set time_idx (tasks_times.getD time_idx 0 + diff_after_rounding)

/-- `TimeAdjuster._calculate_tasks_times` (lines 412–432). -/
def calculate_tasks_times (tasks_times : List ℚ)
    (tasks_must_be_time : ℚ) : List ℚ :=
  let props := proportions tasks_times
  let scaled := props.map (fun p => tasks_must_be_time * p)
  let rounded := scaled.map round_timedelta
  residual_fix tasks_must_be_time rounded

/-- `TimeAdjuster._apply_new_work_time` (lines 434–444). -/
def apply_new_work_time (tasks : List Event) (tasks_times : List ℚ) :
    List Event :=
  (tasks.zip tasks_times).map (fun p =>
    { work_time := p.2, key := p.1.key, title := p.1.title,
      event_type := p.1.event_type : Event })

/-- `TimeAdjuster.adjust_time` (lines 397–410); the raised
`TeamTrackerLoggerError('No tasks to log')` is modelled as `Except.error`. -/
def adjust_time (tasks meetings : List Event) :
    Except String (List Event) :=
  let all_meetings_time := (meetings.map Event.work_time).sum
  let all_tasks_time := (tasks.map Event.work_time).sum
  if all_tasks_time = 0 then Except.error "No tasks to log"
  else
    let tasks_must_be_time := workday_seconds - all_meetings_time
    let new_times := calculate_tasks_times (tasks.map Event.work_time)
      tasks_must_be_time
    Except.ok (apply_new_work_time tasks new_times)

/-- A concrete configuration used by the concrete-instance theorems. -/
def sampleConfig : JiraConfig :=
  ⟨"user", "secret", "someone", "AB", "status", "In Progress", "Done",
    "In Review"⟩

/-! ### Helper lemmas about the rounding function -/

/-- When the remainder is at least half the period, the half-up floor is the
next integer. -/
lemma floor_add_half_of_ge {td : ℚ}
    (h : 150 ≤ td - 300 * ((⌊td / 300⌋ : ℤ) : ℚ)) :
    ⌊td / 300 + 1 / 2⌋ = ⌊td / 300⌋ + 1 := by
  have hx : (300 : ℚ) * (td / 300) = td := by field_simp
  have h2 : td / 300 < (⌊td / 300⌋ : ℚ) + 1 := Int.lt_floor_add_one _
  rw [Int.floor_eq_iff]
  constructor
  · push_cast
    linarith
  · push_cast
    linarith

/-- When the remainder is below half the period, the half-up floor is the
floor itself. -/
lemma floor_add_half_of_lt {td : ℚ}
    (h : td - 300 * ((⌊td / 300⌋ : ℤ) : ℚ) < 150) :
    ⌊td / 300 + 1 / 2⌋ = ⌊td / 300⌋ := by
  have hx : (300 : ℚ) * (td / 300) = td := by field_simp
  have h1 : ((⌊td / 300⌋ : ℚ)) ≤ td / 300 := Int.floor_le _
  rw [Int.floor_eq_iff]
  constructor
  · linarith
  · linarith

/-- `round_timedelta` always lands on the multiple of the period selected by
rounding half up, i.e. `300 * ⌊td / 300 + 1 / 2⌋`. -/
lemma round_timedelta_eq_floor (td : ℚ) :
    round_timedelta td = 300 * (⌊td / 300 + 1 / 2⌋ : ℤ) := by
  unfold round_timedelta
  have hx : (300 : ℚ) * (td / 300) = td := by
    field_simp
  have h1 : ((⌊td / 300⌋ : ℚ)) ≤ td / 300 := Int.floor_le _
  have h2 : td / 300 < (⌊td / 300⌋ : ℚ) + 1 := Int.lt_floor_add_one _
  by_cases h : td - 300 * ((⌊td / 300⌋ : ℤ) : ℚ) ≥ 300 / 2
  · rw [if_pos (by exact_mod_cast h)]
    have hfloor : ⌊td / 300 + 1 / 2⌋ = ⌊td / 300⌋ + 1 := by
      rw [Int.floor_eq_iff]
      constructor
      · push_cast
        linarith
      · push_cast
        linarith
    rw [hfloor]
    push_cast
    ring
  · rw [if_neg (by exact_mod_cast h)]
    have hfloor : ⌊td / 300 + 1 / 2⌋ = ⌊td / 300⌋ := by
      rw [Int.floor_eq_iff]
      constructor
      · linarith
      · push_neg at h
        linarith
    rw [hfloor]
    ring

/-- The rounded value is within half a period of the input. -/
lemma round_timedelta_close (td : ℚ) : |round_timedelta td - td| ≤ 150 := by
  have hx : (300 : ℚ) * (td / 300) = td := by field_simp
  have h1 : ((⌊td / 300⌋ : ℚ)) ≤ td / 300 := Int.floor_le _
  have h2 : td / 300 < (⌊td / 300⌋ : ℚ) + 1 := Int.lt_floor_add_one _
  unfold round_timedelta
  rw [abs_le]
  by_cases h : td - 300 * ((⌊td / 300⌋ : ℤ) : ℚ) ≥ 300 / 2
  · rw [if_pos (by exact_mod_cast h)]
    push_cast at h ⊢
    constructor <;> linarith
  · rw [if_neg (by exact_mod_cast h)]
    push_neg at h
    constructor <;> linarith

/-- Rounding a non-negative value never produces a negative one. -/
lemma round_timedelta_nonneg {td : ℚ} (h : 0 ≤ td) :
    0 ≤ round_timedelta td := by
  rw [round_timedelta_eq_floor]
  have hfl : (0 : ℤ) ≤ ⌊td / 300 + 1 / 2⌋ := by
    rw [Int.le_floor]
    have : (0 : ℚ) ≤ td / 300 := by positivity
    push_cast
    linarith
  have : (0 : ℚ) ≤ (⌊td / 300 + 1 / 2⌋ : ℚ) := by exact_mod_cast hfl
  linarith

/-! ### Helper lemmas about `pyMin`, `pyMax` and `pyIndex` -/

lemma foldl_min_le_init (l : List ℚ) (a : ℚ) : l.foldl min a ≤ a := by
  induction l generalizing a with
  | nil => simp
  | cons b l ih =>
    simpa using le_trans (ih (min a b)) (min_le_left a b)

lemma foldl_min_le_mem (l : List ℚ) (a : ℚ) :
    ∀ x ∈ l, l.foldl min a ≤ x := by
  induction l generalizing a with
  | nil => simp
  | cons b l ih =>
    intro x hx
    rcases List.mem_cons.mp hx with h | h
    · subst h
      simpa using le_trans (foldl_min_le_init l (min a x)) (min_le_right a x)
    · simpa using ih (min a b) x h

lemma foldl_min_mem (l : List ℚ) (a : ℚ) :
    l.foldl min a = a ∨ l.foldl min a ∈ l := by
  induction l generalizing a with
  | nil => simp
  | cons b l ih =>
    rcases ih (min a b) with h | h
    · rcases min_choice a b with hm | hm
      · left
        simpa [hm] using h
      · right
        simp only [List.foldl_cons] at *
        rw [h, hm]
        exact List.mem_cons_self b l
    · right
      exact List.mem_cons_of_mem b (by simpa using h)

lemma pyMin_mem {l : List ℚ} (h : l ≠ []) : pyMin l ∈ l := by
  cases l with
  | nil => exact absurd rfl h
  | cons a l =>
    rcases foldl_min_mem l a with h1 | h1
    · rw [pyMin, h1]
      exact List.mem_cons_self a l
    · exact List.mem_cons_of_mem a (by rw [pyMin]; exact h1)

lemma pyMin_le {l : List ℚ} : ∀ x ∈ l, pyMin l ≤ x := by
  cases l with
  | nil => simp
  | cons a l =>
    intro x hx
    rcases List.mem_cons.mp hx with h | h
    · rw [pyMin, h]
      exact foldl_min_le_init l a
    · exact foldl_min_le_mem l a x h

lemma foldl_max_le_init (l : List ℚ) (a : ℚ) : a ≤ l.foldl max a := by
  induction l generalizing a with
  | nil => simp
  | cons b l ih =>
    simpa using le_trans (le_max_left a b) (ih (max a b))

lemma foldl_max_le_mem (l : List ℚ) (a : ℚ) :
    ∀ x ∈ l, x ≤ l.foldl max a := by
  induction l generalizing a with
  | nil => simp
  | cons b l ih =>
    intro x hx
    rcases List.mem_cons.mp hx with h | h
    · subst h
      simpa using le_trans (le_max_right a x) (foldl_max_le_init l (max a x))
    · simpa using ih (max a b) x h

lemma foldl_max_mem (l : List ℚ) (a : ℚ) :
    l.foldl max a = a ∨ l.foldl max a ∈ l := by
  induction l generalizing a with
  | nil => simp
  | cons b l ih =>
    rcases ih (max a b) with h | h
    · rcases max_choice a b with hm | hm
      · left
        simpa [hm] using h
      · right
        simp only [List.foldl_cons] at *
        rw [h, hm]
        exact List.mem_cons_self b l
    · right
      exact List.mem_cons_of_mem b (by simpa using h)

lemma pyMax_mem {l : List ℚ} (h : l ≠ []) : pyMax l ∈ l := by
  cases l with
  | nil => exact absurd rfl h
  | cons a l =>
    rcases foldl_max_mem l a with h1 | h1
    · rw [pyMax, h1]
      exact List.mem_cons_self a l
    · exact List.mem_cons_of_mem a (by rw [pyMax]; exact h1)

lemma pyMax_le {l : List ℚ} : ∀ x ∈ l, x ≤ pyMax l := by
  cases l with
  | nil => simp
  | cons a l =>
    intro x hx
    rcases List.mem_cons.mp hx with h | h
    · rw [pyMax, h]
      exact foldl_max_le_init l a
    · exact foldl_max_le_mem l a x h

lemma pyIndex_lt_length {l : List ℚ} {x : ℚ} (h : x ∈ l) :
    pyIndex l x < l.length := by
  induction l with
  | nil => cases h
  | cons a l ih =>
    rw [pyIndex]
    by_cases ha : a = x
    · simp [ha]
    · rcases List.mem_cons.mp h with h1 | h1
      · exact absurd h1.symm ha
      · simpa [ha, Nat.succ_lt_succ_iff] using ih h1

lemma pyIndex_get {l : List ℚ} {x : ℚ} (h : x ∈ l) :
    ∀ hlt : pyIndex l x < l.length, l.get ⟨pyIndex l x, hlt⟩ = x := by
  induction l with
  | nil => cases h
  | cons a l ih =>
    intro hlt
    by_cases ha : a = x
    · simp [pyIndex, ha]
    · rcases List.mem_cons.mp h with h1 | h1
      · exact absurd h1.symm ha
      · simp only [pyIndex, if_neg ha]
        simpa [pyIndex, ha] using ih h1 (by
          have := pyIndex_lt_length h1
          simpa [pyIndex, ha] using this)

lemma pyIndex_first {l : List ℚ} {x : ℚ} :
    ∀ (j : ℕ) (hj : j < l.length), j < pyIndex l x → l.get ⟨j, hj⟩ ≠ x := by
  induction l with
  | nil => simp
  | cons a l ih =>
    intro j hj hlt
    by_cases ha : a = x
    · simp [pyIndex, ha] at hlt
    · cases j with
      | zero => simpa using ha
      | succ j =>
        simp only [pyIndex, if_neg ha] at hlt
        simpa using ih j (by simpa using hj) (by omega)

/-! ### Helper lemmas about list updates and sums -/

lemma sum_set (l : List ℚ) (i : ℕ) (v : ℚ) (hi : i < l.length) :
    (l.set i v).sum = l.sum - l.get ⟨i, hi⟩ + v := by
  induction l generalizing i with
  | nil => cases hi
  | cons a l ih =>
    cases i with
    | zero => simp [List.sum_cons]; ring
    | succ i =>
      simp only [List.set_cons_succ, List.sum_cons, List.get_cons_succ]
      rw [ih i (by simpa using hi)]
      ring

lemma getD_eq_get (l : List ℚ) (i : ℕ) (hi : i < l.length) :
    l.getD i 0 = l.get ⟨i, hi⟩ := by
  simp [List.getD_eq_getElem?_getD, List.getElem?_eq_getElem hi]

/-! ### Helper lemmas about the normalizer -/

lemma residual_fix_index_lt {l : List ℚ} (hne : l ≠ []) (t : ℚ) :
    (if t - l.sum > 0 then pyIndex l (pyMin l) else pyIndex l (pyMax l)) <
      l.length := by
  split
  · exact pyIndex_lt_length (pyMin_mem hne)
  · exact pyIndex_lt_length (pyMax_mem hne)

lemma residual_fix_eq (t : ℚ) (l : List ℚ) :
    residual_fix t l = l.set
      (if t - l.sum > 0 then pyIndex l (pyMin l) else pyIndex l (pyMax l))
      (l.getD (if t - l.sum > 0 then pyIndex l (pyMin l)
        else pyIndex l (pyMax l)) 0 + (t - l.sum)) := rfl

lemma residual_fix_sum {l : List ℚ} (hne : l ≠ []) (t : ℚ) :
    (residual_fix t l).sum = t := by
  have hilt := residual_fix_index_lt hne t
  rw [residual_fix_eq, sum_set l _ _ hilt, getD_eq_get l _ hilt]
  ring

lemma proportions_length (items : List ℚ) :
    (proportions items).length = items.length := by
  unfold proportions
  by_cases h : items.sum = 0 <;> simp [h]

lemma calculate_tasks_times_length (l : List ℚ) (t : ℚ) :
    (calculate_tasks_times l t).length = l.length := by
  unfold calculate_tasks_times
  rw [residual_fix_eq]
  simp [proportions_length]

lemma rounded_ne_nil {l : List ℚ} (hne : l ≠ []) (t : ℚ) :
    ((proportions l).map (fun p => t * p)).map round_timedelta ≠ [] := by
  intro hc
  apply hne
  have := congrArg List.length hc
  simp only [List.length_map, proportions_length, List.length_nil] at this
  exact List.length_eq_zero.mp this

lemma calculate_tasks_times_sum {l : List ℚ} (hne : l ≠ []) (t : ℚ) :
    (calculate_tasks_times l t).sum = t := by
  unfold calculate_tasks_times
  exact residual_fix_sum (rounded_ne_nil hne t) t

lemma map_work_time_apply (tasks : List Event) :
    ∀ times : List ℚ, tasks.length = times.length →
      (apply_new_work_time tasks times).map Event.work_time = times := by
  induction tasks with
  | nil =>
    intro times h
    cases times with
    | nil => rfl
    | cons t ts => simp at h
  | cons a tasks ih =>
    intro times h
    cases times with
    | nil => simp at h
    | cons t ts =>
      have := ih ts (by simpa using h)
      simpa [apply_new_work_time] using this

lemma tasks_ne_nil_of_sum_ne {tasks : List Event}
    (h : (tasks.map Event.work_time).sum ≠ 0) : tasks ≠ [] := by
  intro hc
  subst hc
  simp at h

lemma adjust_time_ok (tasks meetings : List Event)
    (h : (tasks.map Event.work_time).sum ≠ 0) :
    adjust_time tasks meetings = Except.ok (apply_new_work_time tasks
      (calculate_tasks_times (tasks.map Event.work_time)
        (workday_seconds - (meetings.map Event.work_time).sum))) := by
  unfold adjust_time
  rw [if_neg h]

lemma adjust_time_out_times (tasks meetings : List Event)
    (h : (tasks.map Event.work_time).sum ≠ 0) :
    ∃ out, adjust_time tasks meetings = Except.ok out ∧
      out.map Event.work_time =
        calculate_tasks_times (tasks.map Event.work_time)
          (workday_seconds - (meetings.map Event.work_time).sum) := by
  refine ⟨_, adjust_time_ok tasks meetings h, ?_⟩
  apply map_work_time_apply
  rw [calculate_tasks_times_length]
  simp

lemma exists_neg_of_sum_neg {l : List ℚ} (h : l.sum < 0) :
    ∃ x ∈ l, x < 0 := by
  by_contra hc
  push_neg at hc
  have : (0 : ℚ) ≤ l.sum := List.sum_nonneg hc
  linarith

lemma proportions_nonneg {items : List ℚ} (h : ∀ x ∈ items, 0 ≤ x) :
    ∀ p ∈ proportions items, 0 ≤ p := by
  intro p hp
  unfold proportions at hp
  by_cases hs : items.sum = 0
  · rw [if_pos hs] at hp
    obtain ⟨x, _, rfl⟩ := List.mem_map.mp hp
    exact le_refl 0
  · rw [if_neg hs] at hp
    obtain ⟨x, hx, rfl⟩ := List.mem_map.mp hp
    have hsum_pos : 0 < items.sum :=
      lt_of_le_of_ne (List.sum_nonneg h) (Ne.symm hs)
    exact div_nonneg (h x hx) (le_of_lt hsum_pos)

/-! ### Helper lemmas about interval reconstruction -/

/-- Membership in `l.zip l.tail` is exactly membership as a consecutive
pair of `l`. -/
lemma mem_zip_tail {α : Type} {l : List α} {p : α × α} :
    p ∈ l.zip l.tail ↔
      ∃ i : ℕ, l.get? i = some p.1 ∧ l.get? (i + 1) = some p.2 := by
  induction l with
  | nil => simp
  | cons a l ih =>
    cases l with
    | nil => simp
    | cons b l2 =>
      rw [List.tail_cons, List.zip_cons_cons, List.mem_cons]
      constructor
      · rintro (rfl | hp)
        · exact ⟨0, rfl, rfl⟩
        · obtain ⟨i, h1, h2⟩ := ih.mp hp
          exact ⟨i + 1, h1, h2⟩
      · rintro ⟨i, h1, h2⟩
        cases i with
        | zero =>
          left
          cases p
          simp only [List.get?_cons_zero, Option.some.injEq] at h1
          simp only [List.get?_cons_succ, List.get?_cons_zero,
            Option.some.injEq] at h2
          simp [h1, h2]
        | succ i =>
          right
          exact ih.mpr ⟨i, by simpa using h1, by simpa using h2⟩

/-! ### Claim theorems -/

/-- C6: `_round_timedelta` rounds every duration to a multiple of the
5-minute period (300 s) that is nearest (within half a period): a remainder
of at least half the period — in particular exactly half — rounds to the
next larger multiple, and a smaller remainder rounds down to the current
multiple. -/
theorem round_timedelta_half_up (td : ℚ) :
    (∃ k : ℤ, round_timedelta td = 300 * k) ∧
    |round_timedelta td - td| ≤ 150 ∧
    (150 ≤ td - 300 * ((⌊td / 300⌋ : ℤ) : ℚ) →
      round_timedelta td = 300 * (((⌊td / 300⌋ : ℤ) : ℚ) + 1)) ∧
    (td - 300 * ((⌊td / 300⌋ : ℤ) : ℚ) < 150 →
      round_timedelta td = 300 * ((⌊td / 300⌋ : ℤ) : ℚ)) := by
  have heq := round_timedelta_eq_floor td
  refine ⟨⟨⌊td / 300 + 1 / 2⌋, heq⟩, round_timedelta_close td, ?_, ?_⟩
  · intro h
    rw [heq, floor_add_half_of_ge h]
    push_cast
    ring
  · intro h
    rw [heq, floor_add_half_of_lt h]

/-- Witness for C6 at the exact half-granularity boundary 150 s: the
hypothesis of the round-up branch holds and 150 s rounds up to 300 s. -/
theorem round_timedelta_half_up_witness :
    (150 : ℚ) ≤ (150 : ℚ) - 300 * ((⌊(150 : ℚ) / 300⌋ : ℤ) : ℚ) ∧
    round_timedelta 150 = 300 * (((⌊(150 : ℚ) / 300⌋ : ℤ) : ℚ) + 1) := by
  have h : (150 : ℚ) ≤ (150 : ℚ) - 300 * ((⌊(150 : ℚ) / 300⌋ : ℤ) : ℚ) := by
    norm_num
  exact ⟨h, (round_timedelta_half_up 150).2.2.1 h⟩

/-- C2: the residual correction step adds the whole residual
`target − sum(rounded)` to exactly one task: the first task attaining the
minimal rounded duration when the residual is positive, and the first task
attaining the maximal rounded duration when the residual is non-positive. -/
theorem residual_correction_first_min_max (tasks_must_be_time : ℚ)
    (rounded : List ℚ) (hne : rounded ≠ []) :
    (0 < tasks_must_be_time - rounded.sum →
      ∃ (i : ℕ) (hi : i < rounded.length),
        (∀ (j : ℕ) (hj : j < rounded.length),
          rounded.get ⟨i, hi⟩ ≤ rounded.get ⟨j, hj⟩) ∧
        (∀ (j : ℕ) (hj : j < rounded.length), j < i →
          rounded.get ⟨i, hi⟩ < rounded.get ⟨j, hj⟩) ∧
        residual_fix tasks_must_be_time rounded = rounded.set i
          (rounded.get ⟨i, hi⟩ + (tasks_must_be_time - rounded.sum))) ∧
    (tasks_must_be_time - rounded.sum ≤ 0 →
      ∃ (i : ℕ) (hi : i < rounded.length),
        (∀ (j : ℕ) (hj : j < rounded.length),
          rounded.get ⟨j, hj⟩ ≤ rounded.get ⟨i, hi⟩) ∧
        (∀ (j : ℕ) (hj : j < rounded.length), j < i →
          rounded.get ⟨j, hj⟩ < rounded.get ⟨i, hi⟩) ∧
        residual_fix tasks_must_be_time rounded = rounded.set i
          (rounded.get ⟨i, hi⟩ + (tasks_must_be_time - rounded.sum))) := by
  constructor
  · intro hpos
    have hmem := pyMin_mem hne
    have hlt := pyIndex_lt_length hmem
    have hget := pyIndex_get hmem hlt
    refine ⟨pyIndex rounded (pyMin rounded), hlt, ?_, ?_, ?_⟩
    · intro j hj
      rw [hget]
      exact pyMin_le _ (rounded.get_mem j hj)
    · intro j hj hji
      have hne2 := pyIndex_first j hj hji
      have hle := pyMin_le _ (rounded.get_mem j hj)
      rw [hget]
      exact lt_of_le_of_ne hle (fun hc => hne2 hc.symm)
    · rw [residual_fix_eq, if_pos hpos, getD_eq_get _ _ hlt]
  · intro hnonpos
    have hmem := pyMax_mem hne
    have hlt := pyIndex_lt_length hmem
    have hget := pyIndex_get hmem hlt
    have hcond : ¬(tasks_must_be_time - rounded.sum > 0) := by linarith
    refine ⟨pyIndex rounded (pyMax rounded), hlt, ?_, ?_, ?_⟩
    · intro j hj
      rw [hget]
      exact pyMax_le _ (rounded.get_mem j hj)
    · intro j hj hji
      have hne2 := pyIndex_first j hj hji
      have hle := pyMax_le _ (rounded.get_mem j hj)
      rw [hget]
      exact lt_of_le_of_ne hle (fun hc => hne2 hc)
    · rw [residual_fix_eq, if_neg hcond, getD_eq_get _ _ hlt]

/-- Witness for C2 at target 100 and rounded list `[0]`: the residual is
positive and the correction lands on the only (hence first minimal)
entry. -/
theorem residual_correction_first_min_max_witness :
    (0 : ℚ) < 100 - [(0 : ℚ)].sum ∧
    (∃ (i : ℕ) (hi : i < [(0 : ℚ)].length),
      (∀ (j : ℕ) (hj : j < [(0 : ℚ)].length),
        [(0 : ℚ)].get ⟨i, hi⟩ ≤ [(0 : ℚ)].get ⟨j, hj⟩) ∧
      (∀ (j : ℕ) (hj : j < [(0 : ℚ)].length), j < i →
        [(0 : ℚ)].get ⟨i, hi⟩ < [(0 : ℚ)].get ⟨j, hj⟩) ∧
      residual_fix 100 [(0 : ℚ)] = [(0 : ℚ)].set i
        ([(0 : ℚ)].get ⟨i, hi⟩ + (100 - [(0 : ℚ)].sum))) :=
  ⟨by norm_num,
    (residual_correction_first_min_max 100 [(0 : ℚ)] (by simp)).1
      (by norm_num)⟩

/-- C7: `adjust_time` raises exactly the `'No tasks to log'` error when the
raw task durations sum to zero (in particular for the empty task list and
for all-zero durations), returns normally otherwise, and the division in
`_proportions` is guarded: a zero sum short-circuits to all-zero
proportions instead of dividing. -/
theorem adjust_time_error_iff (tasks meetings : List Event) :
    (adjust_time tasks meetings = Except.error "No tasks to log" ↔
      (tasks.map Event.work_time).sum = 0) ∧
    ((tasks.map Event.work_time).sum ≠ 0 →
      ∃ out, adjust_time tasks meetings = Except.ok out) ∧
    ((tasks.map Event.work_time).sum = 0 →
      proportions (tasks.map Event.work_time) =
        (tasks.map Event.work_time).map fun _ => 0) := by
  refine ⟨⟨?_, ?_⟩, ?_, ?_⟩
  · intro h
    by_contra hc
    rw [adjust_time_ok tasks meetings hc] at h
    exact Except.noConfusion h
  · intro h
    unfold adjust_time
    rw [if_pos h]
  · intro h
    exact ⟨_, adjust_time_ok tasks meetings h⟩
  · intro h
    unfold proportions
    rw [if_pos h]

/-- Witness for C7 on the empty task list: the sum is zero and the distinct
domain error is raised. -/
theorem adjust_time_error_iff_witness :
    adjust_time [] [] = Except.error "No tasks to log" :=
  ((adjust_time_error_iff [] []).1).mpr (by simp)

/-- C10 (implicit): no upper bound on the meeting total — with a non-zero
raw task total and meetings exceeding the 8-hour daily budget,
`adjust_time` raises no error and the returned durations sum to the
negative target `daily_budget − meeting_total`, so some returned duration
is negative. -/
theorem adjust_time_meetings_unbounded (tasks meetings : List Event)
    (hsum : (tasks.map Event.work_time).sum ≠ 0)
    (hm : workday_seconds < (meetings.map Event.work_time).sum) :
    ∃ out, adjust_time tasks meetings = Except.ok out ∧
      (out.map Event.work_time).sum =
        workday_seconds - (meetings.map Event.work_time).sum ∧
      (out.map Event.work_time).sum < 0 ∧
      ∃ d ∈ out.map Event.work_time, d < 0 := by
  obtain ⟨out, hok, htimes⟩ := adjust_time_out_times tasks meetings hsum
  have hnil : tasks.map Event.work_time ≠ [] := fun hc =>
    tasks_ne_nil_of_sum_ne hsum (List.map_eq_nil_iff.mp hc)
  have hsum2 : (out.map Event.work_time).sum =
      workday_seconds - (meetings.map Event.work_time).sum := by
    rw [htimes]
    exact calculate_tasks_times_sum hnil _
  have hneg : (out.map Event.work_time).sum < 0 := by
    rw [hsum2]
    linarith
  exact ⟨out, hok, hsum2, hneg, exists_neg_of_sum_neg hneg⟩

/-- Witness for C10: one task of 3600 s and one meeting of 30000 s
(8 h 20 min > 8 h). -/
theorem adjust_time_meetings_unbounded_witness :
    ∃ out, adjust_time [⟨3600, "AB-1", "task", EventType.TASK⟩]
        [⟨30000, "", "meetings", EventType.MEETING⟩] = Except.ok out ∧
      (out.map Event.work_time).sum = workday_seconds -
        (([⟨30000, "", "meetings", EventType.MEETING⟩] : List Event).map
          Event.work_time).sum ∧
      (out.map Event.work_time).sum < 0 ∧
      ∃ d ∈ out.map Event.work_time, d < 0 :=
  adjust_time_meetings_unbounded
    [⟨3600, "AB-1", "task", EventType.TASK⟩]
    [⟨30000, "", "meetings", EventType.MEETING⟩]
    (by norm_num)
    (by norm_num [workday_seconds, WORK_HOURS])

/-- C1 counterexample: with one raw task of 100 s and meetings totalling
29040 s (484 min), `adjust_time` succeeds and returns the single task
duration −240 s, which is negative and not a multiple of the 5-minute
granularity (300 s) — refuting both the non-negativity part and the
multiple-of-granularity part of the claim.  (The sum −240 s does equal
`daily_budget − meeting_total = 28800 − 29040`.) -/
theorem normalizer_granularity_counterexample :
    adjust_time [⟨100, "AB-1", "task", EventType.TASK⟩]
        [⟨29040, "", "meetings", EventType.MEETING⟩] =
      Except.ok [⟨-240, "AB-1", "task", EventType.TASK⟩] ∧
    (-240 : ℚ) < 0 ∧ (∀ k : ℤ, (-240 : ℚ) ≠ 300 * k) := by
  refine ⟨?_, by norm_num, ?_⟩
  · norm_num [adjust_time, workday_seconds, WORK_HOURS,
      calculate_tasks_times, residual_fix, proportions, round_timedelta,
      pyIndex, pyMin, pyMax, apply_new_work_time]
  · intro k hk
    have h5 : ((5 * k : ℤ) : ℚ) = -4 := by
      push_cast
      linarith
    have h6 : (5 * k : ℤ) = -4 := by exact_mod_cast h5
    omega

/-- C1 (amended): for every non-empty task list of non-negative raw
durations with non-zero sum and every meeting list, `adjust_time` returns
durations that sum exactly to `daily_budget − total_meeting_duration`; the
result is the list of independently rounded durations with the residual
added at a single index, and every rounded duration is a multiple of the
5-minute granularity and is non-negative whenever the target is
non-negative. -/
theorem normalizer_sum_exact (tasks meetings : List Event)
    (hsum : (tasks.map Event.work_time).sum ≠ 0)
    (hnn : ∀ e ∈ tasks, 0 ≤ e.work_time) :
    ∃ out, adjust_time tasks meetings = Except.ok out ∧
      (out.map Event.work_time).sum =
        workday_seconds - (meetings.map Event.work_time).sum ∧
      ∃ (rounded : List ℚ) (i : ℕ), i < rounded.length ∧
        out.map Event.work_time = rounded.set i (rounded.getD i 0 +
          (workday_seconds - (meetings.map Event.work_time).sum -
            rounded.sum)) ∧
        ∀ x ∈ rounded, (∃ k : ℤ, x = 300 * k) ∧
          (0 ≤ workday_seconds - (meetings.map Event.work_time).sum →
            0 ≤ x) := by
  obtain ⟨out, hok, htimes⟩ := adjust_time_out_times tasks meetings hsum
  have hnil : tasks.map Event.work_time ≠ [] := fun hc =>
    tasks_ne_nil_of_sum_ne hsum (List.map_eq_nil_iff.mp hc)
  have hsum2 : (out.map Event.work_time).sum =
      workday_seconds - (meetings.map Event.work_time).sum := by
    rw [htimes]
    exact calculate_tasks_times_sum hnil _
  refine ⟨out, hok, hsum2, ?_⟩
  set target := workday_seconds - (meetings.map Event.work_time).sum
    with htarget
  set rounded := ((proportions (tasks.map Event.work_time)).map
    (fun p => target * p)).map round_timedelta with hrounded
  have hrne : rounded ≠ [] := rounded_ne_nil hnil target
  refine ⟨rounded,
    if target - rounded.sum > 0 then pyIndex rounded (pyMin rounded)
      else pyIndex rounded (pyMax rounded),
    residual_fix_index_lt hrne target, ?_, ?_⟩
  · rw [htimes]
    exact residual_fix_eq target rounded
  · intro x hx
    obtain ⟨y, hy, rfl⟩ := List.mem_map.mp hx
    constructor
    · exact ⟨⌊y / 300 + 1 / 2⌋, round_timedelta_eq_floor y⟩
    · intro htnn
      obtain ⟨p, hp, rfl⟩ := List.mem_map.mp hy
      have hpnn : 0 ≤ p := by
        refine proportions_nonneg ?_ p hp
        intro z hz
        obtain ⟨e, he, rfl⟩ := List.mem_map.mp hz
        exact hnn e he
      exact round_timedelta_nonneg (mul_nonneg htnn hpnn)

/-- Witness for C1 (amended), at the spec's worked example: raw durations
40 min and 20 min, meetings totalling 1 h. -/
theorem normalizer_sum_exact_witness :
    ∃ out, adjust_time [⟨2400, "AB-1", "task a", EventType.TASK⟩,
        ⟨1200, "AB-2", "task b", EventType.TASK⟩]
        [⟨3600, "", "meetings", EventType.MEETING⟩] = Except.ok out ∧
      (out.map Event.work_time).sum = workday_seconds -
        (([⟨3600, "", "meetings", EventType.MEETING⟩] : List Event).map
          Event.work_time).sum ∧
      ∃ (rounded : List ℚ) (i : ℕ), i < rounded.length ∧
        out.map Event.work_time = rounded.set i (rounded.getD i 0 +
          (workday_seconds -
            (([⟨3600, "", "meetings", EventType.MEETING⟩] : List Event).map
              Event.work_time).sum - rounded.sum)) ∧
        ∀ x ∈ rounded, (∃ k : ℤ, x = 300 * k) ∧
          (0 ≤ workday_seconds -
            (([⟨3600, "", "meetings", EventType.MEETING⟩] : List Event).map
              Event.work_time).sum → 0 ≤ x) :=
  normalizer_sum_exact
    [⟨2400, "AB-1", "task a", EventType.TASK⟩,
      ⟨1200, "AB-2", "task b", EventType.TASK⟩]
    [⟨3600, "", "meetings", EventType.MEETING⟩]
    (by norm_num)
    (by intro e he
        simp only [List.mem_cons, List.mem_singleton] at he
        rcases he with rfl | rfl | h
        · norm_num
        · norm_num
        · cases h)

/-- C5: the pair scan of `_work_intervals` emits an interval exactly for
the immediately adjacent pairs `(a, b)` with `a.to_status = start_status`
and `b.to_status` one of the two stop statuses; `_work_intervals` is that
scan plus at most one synthesized "not finished" interval; the pattern
`start, other, stop` yields no interval from pairing while `start, stop`
yields exactly one. -/
theorem pairing_adjacent_only (config : JiraConfig)
    (changes : List StatusChange) :
    (∀ v : TimeInterval, v ∈ pairIntervals config changes ↔
      ∃ (i : ℕ) (a b : StatusChange), changes.get? i = some a ∧
        changes.get? (i + 1) = some b ∧
        a.to_status = config.start_work_status ∧
        (b.to_status = config.stop_work_status_primary ∨
          b.to_status = config.stop_work_status_secondary) ∧
        v = ⟨a.created, b.created, a.to_status, b.to_status⟩) ∧
    (∀ stop_work_timestamp current_status, ∃ tail,
      work_intervals config stop_work_timestamp changes current_status =
        pairIntervals config changes ++ tail ∧
      (tail = [] ∨ ∃ t : TimeInterval, tail = [t] ∧
        t.to_status = not_finished)) ∧
    (∀ a b c : StatusChange, a.to_status = config.start_work_status →
      b.to_status ≠ config.stop_work_status_primary →
      b.to_status ≠ config.stop_work_status_secondary →
      b.to_status ≠ config.start_work_status →
      pairIntervals config [a, b, c] = []) ∧
    (∀ a b : StatusChange, a.to_status = config.start_work_status →
      (b.to_status = config.stop_work_status_primary ∨
        b.to_status = config.stop_work_status_secondary) →
      pairIntervals config [a, b] =
        [⟨a.created, b.created, a.to_status, b.to_status⟩]) := by
  refine ⟨?_, ?_, ?_, ?_⟩
  · intro v
    unfold pairIntervals
    rw [List.mem_filterMap]
    constructor
    · rintro ⟨p, hp, hfp⟩
      obtain ⟨i, h1, h2⟩ := mem_zip_tail.mp hp
      by_cases hc : p.1.to_status = config.start_work_status ∧
          p.2.to_status ∈ [config.stop_work_status_primary,
            config.stop_work_status_secondary]
      · rw [if_pos hc] at hfp
        refine ⟨i, p.1, p.2, h1, h2, hc.1, ?_, ?_⟩
        · simpa using hc.2
        · exact (Option.some.injEq _ _ ▸ hfp).symm
      · rw [if_neg hc] at hfp
        exact Option.noConfusion hfp
    · rintro ⟨i, a, b, h1, h2, ha, hb, rfl⟩
      refine ⟨(a, b), mem_zip_tail.mpr ⟨i, h1, h2⟩, ?_⟩
      rw [if_pos ⟨ha, by simpa using hb⟩]
  · intro stop_work_timestamp current_status
    unfold work_intervals
    by_cases hne : changes = []
    · rw [dif_pos hne]
      subst hne
      exact ⟨[], rfl, Or.inl rfl⟩
    · rw [dif_neg hne]
      by_cases hcond : current_status = config.start_work_status ∧
          (changes.getLast hne).to_status = config.start_work_status
      · rw [if_pos hcond]
        exact ⟨_, rfl, Or.inr ⟨_, rfl, rfl⟩⟩
      · rw [if_neg hcond]
        exact ⟨[], (List.append_nil _).symm, Or.inl rfl⟩
  · intro a b c ha hb1 hb2 hb3
    unfold pairIntervals
    simp [ha, hb1, hb2, hb3]
  · intro a b ha hb
    unfold pairIntervals
    rcases hb with hb | hb <;> simp [ha, hb]

/-- Witness for C5: a `start, stop` pair under the sample configuration
yields exactly one interval. -/
theorem pairing_adjacent_only_witness :
    pairIntervals sampleConfig [⟨1000, "In Progress"⟩, ⟨2000, "Done"⟩] =
      [⟨1000, 2000, "In Progress", "Done"⟩] :=
  (pairing_adjacent_only sampleConfig []).2.2.2
    ⟨1000, "In Progress"⟩ ⟨2000, "Done"⟩ rfl (Or.inl rfl)

/-- C4: when the last status change targets `start_status` and the current
status is still `start_status`, `_work_intervals` appends exactly one
terminal interval: it starts at the last change's timestamp, stops at the
configured end-of-workday timestamp if that is later than the change's
timestamp and otherwise exactly 10 minutes (600 s) after it, and carries
the sentinel "not finished" stop status. -/
theorem work_intervals_unfinished (config : JiraConfig)
    (stop_work_timestamp : ℚ) (changes : List StatusChange)
    (current_status : String) (hne : changes ≠ [])
    (hlast : (changes.getLast hne).to_status = config.start_work_status)
    (hcur : current_status = config.start_work_status) :
    work_intervals config stop_work_timestamp changes current_status =
      pairIntervals config changes ++
        [⟨(changes.getLast hne).created,
          if stop_work_timestamp > (changes.getLast hne).created then
            stop_work_timestamp
          else (changes.getLast hne).created + 600,
          config.start_work_status, not_finished⟩] := by
  unfold work_intervals
  rw [dif_neg hne, if_pos ⟨hcur, hlast⟩, hlast]

/-- Witness for C4: a single change to the start status at 1000 s with the
workday end at 500 s (already passed): the synthesized stop is exactly
1000 + 600 s. -/
theorem work_intervals_unfinished_witness :
    work_intervals sampleConfig 500 [⟨1000, "In Progress"⟩] "In Progress" =
      [⟨1000, 1600, "In Progress", "NOT FINISHED YET"⟩] := by
  have h := work_intervals_unfinished sampleConfig 500
    [⟨1000, "In Progress"⟩] "In Progress" (by simp) rfl rfl
  rw [h]
  norm_num [pairIntervals, not_finished, sampleConfig]

/-- C3 counterexample: with workday window 09:00–17:00 (32400–61200 s) on
day 0, the interval 06:00–07:00 (21600–25200 s) is on the target date but
clips to start 32400 and stop 25200 — `stop < start`, duration −7200 s.
Moreover the interval 18:00–22:00 (64800–79200 s), entirely after the
workday end, keeps both its own endpoints, so its clipped duration is its
full 14400 s (4 h), not zero or near zero. -/
theorem clip_negative_counterexample :
    (TimeInterval.is_between ⟨21600, 25200, "In Progress", "Done"⟩ 0) ∧
    (limit_by_work_hours 32400 61200
        ⟨21600, 25200, "In Progress", "Done"⟩).stop <
      (limit_by_work_hours 32400 61200
        ⟨21600, 25200, "In Progress", "Done"⟩).start ∧
    (limit_by_work_hours 32400 61200
      ⟨21600, 25200, "In Progress", "Done"⟩).duration = -7200 ∧
    (TimeInterval.is_between ⟨64800, 79200, "In Progress", "Done"⟩ 0) ∧
    limit_by_work_hours 32400 61200 ⟨64800, 79200, "In Progress", "Done"⟩ =
      ⟨64800, 79200, "In Progress", "Done"⟩ ∧
    (limit_by_work_hours 32400 61200
      ⟨64800, 79200, "In Progress", "Done"⟩).duration = 14400 := by
  refine ⟨?_, ?_, ?_, ?_, ?_, ?_⟩ <;>
    norm_num [TimeInterval.is_between, dateOf, limit_by_work_hours,
      TimeInterval.duration]

/-- C3 (amended): for every interval with `start ≤ stop` whose stop is not
before the workday start, clipping yields `start ≤ stop` (non-negative
duration); an interval beginning strictly after the workday end keeps both
its own endpoints, so its clipped duration equals its own (non-negative)
duration. -/
theorem clip_nonneg (start_work_timestamp stop_work_timestamp : ℚ)
    (obj : TimeInterval)
    (hw : start_work_timestamp ≤ stop_work_timestamp)
    (hobj : obj.start ≤ obj.stop)
    (hstop : start_work_timestamp ≤ obj.stop) :
    (limit_by_work_hours start_work_timestamp stop_work_timestamp
        obj).start ≤
      (limit_by_work_hours start_work_timestamp stop_work_timestamp
        obj).stop ∧
    (stop_work_timestamp < obj.start →
      limit_by_work_hours start_work_timestamp stop_work_timestamp obj =
        obj) := by
  constructor
  · unfold limit_by_work_hours
    dsimp only
    split_ifs with h1 h2 h2
    · exact hobj
    · push_neg at h2
      exact h2.2
    · rcases h2 with h2 | h2
      · exact hstop
      · push_neg at h1
        linarith
    · exact hw
  · intro hlt
    have h1 : obj.start > start_work_timestamp := lt_of_le_of_lt hw hlt
    unfold limit_by_work_hours
    rw [if_pos h1, if_pos (Or.inr hlt)]

/-- Witness for C3 (amended): the interval 40000–50000 s inside the workday
32400–61200 s clips to a non-negative-duration interval. -/
theorem clip_nonneg_witness :
    (limit_by_work_hours 32400 61200
        ⟨40000, 50000, "In Progress", "Done"⟩).start ≤
      (limit_by_work_hours 32400 61200
        ⟨40000, 50000, "In Progress", "Done"⟩).stop ∧
    ((61200 : ℚ) < (40000 : ℚ) →
      limit_by_work_hours 32400 61200 ⟨40000, 50000, "In Progress", "Done"⟩ =
        ⟨40000, 50000, "In Progress", "Done"⟩) :=
  clip_nonneg 32400 61200 ⟨40000, 50000, "In Progress", "Done"⟩
    (by norm_num) (by norm_num) (by norm_num)

/-- C8: `_status_changes_list` returns the empty sequence on an empty
change-log, contains exactly the records whose first change item targets
the configured status field (with their timestamp and `toString` value),
and turns a newest-first change-log into an oldest-first sequence. -/
theorem status_changes_list_spec (status_field : String)
    (histories : List History) :
    status_changes_list status_field [] = [] ∧
    (∀ sc : StatusChange, sc ∈ status_changes_list status_field histories ↔
      ∃ h ∈ histories, is_status_history status_field h = true ∧
        sc = ⟨h.created, (h.items.headD ⟨"", ""⟩).to_string⟩) ∧
    (List.Pairwise (fun a b => b.created ≤ a.created) histories →
      List.Pairwise (fun (a : StatusChange) b => a.created ≤ b.created)
        (status_changes_list status_field histories)) := by
  refine ⟨rfl, ?_, ?_⟩
  · intro sc
    unfold status_changes_list
    rw [List.mem_map]
    constructor
    · rintro ⟨h, hmem, rfl⟩
      rw [List.mem_filter, List.mem_reverse] at hmem
      exact ⟨h, hmem.1, hmem.2, rfl⟩
    · rintro ⟨h, hmem, hp, rfl⟩
      exact ⟨h, List.mem_filter.mpr ⟨List.mem_reverse.mpr hmem, hp⟩, rfl⟩
  · intro hp
    unfold status_changes_list
    rw [List.pairwise_map]
    apply List.Pairwise.filter
    rw [List.pairwise_reverse]
    exact hp

/-- Witness for C8: a two-record newest-first change-log produces an
oldest-first sequence. -/
theorem status_changes_list_spec_witness :
    List.Pairwise (fun (a : StatusChange) b => a.created ≤ b.created)
      (status_changes_list "status"
        [⟨200, [⟨"status", "Done"⟩]⟩, ⟨100, [⟨"status", "In Progress"⟩]⟩]) :=
  (status_changes_list_spec "status"
      [⟨200, [⟨"status", "Done"⟩]⟩, ⟨100, [⟨"status", "In Progress"⟩]⟩]).2.2
    (by norm_num [List.pairwise_cons])

/-- C9: `_remove_duplicates_and_errors` keeps exactly the events with
non-zero duration, with no value-equal duplicates: the output has no
zero-duration event, is duplicate-free, its members are exactly the
non-zero-duration members of the input, and each such event occurs exactly
once. -/
theorem remove_duplicates_spec (events : List Event) :
    (∀ e ∈ remove_duplicates_and_errors events, e.work_time ≠ 0) ∧
    (remove_duplicates_and_errors events).Nodup ∧
    (∀ e : Event, e ∈ remove_duplicates_and_errors events ↔
      e ∈ events ∧ e.work_time ≠ 0) ∧
    (∀ e : Event, e ∈ events → e.work_time ≠ 0 →
      (remove_duplicates_and_errors events).count e = 1) := by
  have hmem : ∀ e : Event, e ∈ remove_duplicates_and_errors events ↔
      e ∈ events ∧ e.work_time ≠ 0 := by
    intro e
    unfold remove_duplicates_and_errors
    rw [List.mem_dedup, List.mem_filter]
    simp
  have hnodup : (remove_duplicates_and_errors events).Nodup :=
    List.nodup_dedup _
  refine ⟨fun e he => ((hmem e).mp he).2, hnodup, hmem, ?_⟩
  intro e he hwt
  exact List.count_eq_one_of_mem hnodup ((hmem e).mpr ⟨he, hwt⟩)

/-- Witness for C9: a zero-duration event is dropped and a duplicated
5-second event is kept exactly once. -/
theorem remove_duplicates_spec_witness :
    (remove_duplicates_and_errors [⟨0, "AB-1", "t", EventType.TASK⟩,
      ⟨5, "AB-2", "t", EventType.TASK⟩,
      ⟨5, "AB-2", "t", EventType.TASK⟩]).count
      ⟨5, "AB-2", "t", EventType.TASK⟩ = 1 :=
  (remove_duplicates_spec [⟨0, "AB-1", "t", EventType.TASK⟩,
      ⟨5, "AB-2", "t", EventType.TASK⟩,
      ⟨5, "AB-2", "t", EventType.TASK⟩]).2.2.2
    ⟨5, "AB-2", "t", EventType.TASK⟩ (by simp) (by norm_num)

end TTLog
